import Mathlib

/-!
Verification development for the configuration resolution and merge engine of
purgo-cli, together with its config cache and path deduplication algorithm.

The definitions below are shallow embeddings of the TypeScript sources:
  - src/config.ts   (configSchema, mergeConfigs, resolveExtends, loadConfig)
  - src/cache.ts    (ConfigCache)
  - src/utils.ts    (deduplicatePaths)

JavaScript `undefined`-able fields become `Option`, the `??` operator becomes
`Option.or`, thrown errors become an `Except` error type, the filesystem and
the external config-file loader (cosmiconfig) become explicit environment
records, and `Date.now()` becomes an explicit `now : Nat` parameter.
-/

/-- Embedding of the `hooks` object of the configuration schema:
an object with optional `preClean` and `postClean` string fields. -/
structure Hooks where
  preClean : Option String
  postClean : Option String
deriving DecidableEq, Repr

/-- Embedding of the validated configuration shape (`configSchema` /
`PurgoConfig` in src/config.ts).  All fields are optional; `extends` is either
a single string or a list of strings (`z.union([z.string(), z.array(z.string())])`).
The field is spelled `extends_` because `extends` is a Lean keyword. -/
structure PurgoConfig where
  targets : Option (List String)
  ignore : Option (List String)
  extends_ : Option (String ⊕ List String)
  hooks : Option Hooks
deriving DecidableEq, Repr

/-- Embedding of `mergeConfigs(base, override)` from src/config.ts.
Scalar/array fields are `override.x ?? base.x`; `hooks` is merged per-subfield
when both sides have a hooks object, otherwise whichever side has one wins
(and the result has no hooks when neither side does). -/
def mergeConfigs (base override : PurgoConfig) : PurgoConfig :=
  let mergedHooks : Option Hooks :=
    match override.hooks, base.hooks with
    | none, none => none
    | none, some h => some h
    | some h, none => some h
    | some o, some b =>
        some { preClean := o.preClean.or b.preClean
               postClean := o.postClean.or b.postClean }
  { targets := override.targets.or base.targets
    ignore := override.ignore.or base.ignore
    extends_ := override.extends_.or base.extends_
    hooks := mergedHooks }

/-- Convenience projection: the `hooks?.preClean` optional chain of JS. -/
def hookPre (c : PurgoConfig) : Option String :=
  c.hooks.bind Hooks.preClean

/-- Convenience projection: the `hooks?.postClean` optional chain of JS. -/
def hookPost (c : PurgoConfig) : Option String :=
  c.hooks.bind Hooks.postClean

/-- Embedding of the `LoadedConfig` interface of src/config.ts: a configuration
paired with an optional provenance filepath. -/
structure LoadedConfig where
  config : PurgoConfig
  filepath : Option String
deriving DecidableEq, Repr

namespace ConfigCache

/-- Embedding of the `CacheEntry` interface of src/cache.ts. -/
structure CacheEntry where
  config : LoadedConfig
  timestamp : Nat
deriving DecidableEq, Repr

/-- The cache's map, as an insertion-ordered association list (the JS `Map`). -/
abbrev CacheState := List (String × CacheEntry)

/-- Embedding of `TTL = 5 * 60 * 1000` (milliseconds) of src/cache.ts. -/
def TTL : Nat := 5 * 60 * 1000

/-- Embedding of `getCacheKey` of src/cache.ts; the template literal is
`projectRoot::globalConfigPath || "none"`, and `||` treats the empty string
as falsy, so both an absent and an empty global path map to `"none"`. -/
def getCacheKey (projectRoot : String) (globalConfigPath : Option String) : String :=
  projectRoot ++ "::" ++
    (match globalConfigPath with
     | none => "none"
     | some s => if s = "" then "none" else s)

/-- Embedding of `isValid`: `Date.now() - entry.timestamp < this.TTL`. -/
def isValid (now : Nat) (entry : CacheEntry) : Bool :=
  now - entry.timestamp < TTL

/-- JS `Map.prototype.set`: replace the value in place if the key is present,
otherwise append at the end (insertion order). -/
def mapSet : CacheState → String → CacheEntry → CacheState
  | [], k, v => [(k, v)]
  | (k', v') :: rest, k, v =>
      if k' = k then (k, v) :: rest else (k', v') :: mapSet rest k v

/-- JS `Map.prototype.delete`. -/
def mapDelete (m : CacheState) (k : String) : CacheState :=
  m.filter (fun p => p.1 != k)

/-- Embedding of `ConfigCache.get`: returns the cached value (if present and
unexpired) together with the map after get's lazy eviction. -/
def get (cache : CacheState) (now : Nat) (projectRoot : String)
    (globalConfigPath : Option String) : Option LoadedConfig × CacheState :=
  let key := getCacheKey projectRoot globalConfigPath
  match cache.lookup key with
  | none => (none, cache)
  | some entry =>
      if isValid now entry then (some entry.config, cache)
      else (none, mapDelete cache key)

/-- Embedding of `ConfigCache.set`. -/
def set (cache : CacheState) (projectRoot : String) (config : LoadedConfig)
    (globalConfigPath : Option String) (now : Nat) : CacheState :=
  mapSet cache (getCacheKey projectRoot globalConfigPath)
    { config := config, timestamp := now }

/-- Embedding of `ConfigCache.invalidate`. -/
def invalidate (cache : CacheState) (projectRoot : String)
    (globalConfigPath : Option String) : CacheState :=
  mapDelete cache (getCacheKey projectRoot globalConfigPath)

/-- Embedding of `ConfigCache.cleanup`: delete every invalid entry. -/
def cleanup (cache : CacheState) (now : Nat) : CacheState :=
  cache.filter (fun p => isValid now p.2)

/-- Embedding of `ConfigCache.stats`: runs `cleanup` first, then reports the
map's size twice (as `size` and `entries`), together with the swept map. -/
def stats (cache : CacheState) (now : Nat) : (Nat × Nat) × CacheState :=
  let cleaned := cleanup cache now
  ((cleaned.length, cleaned.length), cleaned)

end ConfigCache

/-! Helper lemmas about the JS-`Map` association-list operations. -/

/-- Setting a key makes it look up to the freshly stored value. -/
theorem lookup_mapSet_self (m : ConfigCache.CacheState) (k : String)
    (v : ConfigCache.CacheEntry) : (ConfigCache.mapSet m k v).lookup k = some v := by
  induction m with
  | nil => simp [ConfigCache.mapSet, List.lookup]
  | cons a rest ih =>
      obtain ⟨k', v'⟩ := a
      by_cases h : k' = k
      · subst h
        simp [ConfigCache.mapSet, List.lookup]
      · have hne : (k == k') = false := beq_eq_false_iff_ne.mpr (Ne.symm h)
        simp [ConfigCache.mapSet, h, List.lookup, hne, ih]

/-- Deleting a key removes it from the map. -/
theorem lookup_mapDelete_self (m : ConfigCache.CacheState) (k : String) :
    (ConfigCache.mapDelete m k).lookup k = none := by
  induction m with
  | nil => rfl
  | cons a rest ih =>
      obtain ⟨k', v'⟩ := a
      by_cases h : k' = k
      · subst h
        simpa only [ConfigCache.mapDelete, List.filter_cons, bne_self_eq_false,
          Bool.false_eq_true, if_false, reduceIte] using ih
      · have hb : (k' != k) = true := bne_iff_ne.mpr h
        have hne : (k == k') = false := beq_eq_false_iff_ne.mpr (Ne.symm h)
        simp only [ConfigCache.mapDelete, List.filter_cons, hb, if_true, reduceIte,
          List.lookup, hne]
        simpa only [ConfigCache.mapDelete] using ih

/-- C1: for all configurations A and B, `mergeConfigs A B` (A the base, B the
override) resolves `targets`, `ignore` and `extends` to B's value if present,
otherwise A's; `hooks` resolves per-subfield (`preClean` and `postClean` each
take B's value if present, otherwise A's); and the result has no hooks exactly
when neither A nor B has hooks. -/
theorem mergeConfigs_spec (A B : PurgoConfig) :
    (mergeConfigs A B).targets = B.targets.or A.targets ∧
    (mergeConfigs A B).ignore = B.ignore.or A.ignore ∧
    (mergeConfigs A B).extends_ = B.extends_.or A.extends_ ∧
    hookPre (mergeConfigs A B) = (hookPre B).or (hookPre A) ∧
    hookPost (mergeConfigs A B) = (hookPost B).or (hookPost A) ∧
    ((mergeConfigs A B).hooks = none ↔ A.hooks = none ∧ B.hooks = none) := by
  obtain ⟨ta, ia, ea, ha⟩ := A
  obtain ⟨tb, ib, eb, hb⟩ := B
  cases ha <;> cases hb <;>
    simp [mergeConfigs, hookPre, hookPost]

/-- C6: a `get` at the very moment of a `set` with identical keys returns the
stored value; a `get` at least `TTL = 300000` milliseconds after the `set`
returns absent and deletes the entry (lazy eviction); and `stats` runs
`cleanup` first, so its reported size is the number of unexpired entries. -/
theorem configCache_get_set_ttl (st : ConfigCache.CacheState) (root : String)
    (gcp : Option String) (lc : LoadedConfig) (now d : Nat) :
    (ConfigCache.get (ConfigCache.set st root lc gcp now) now root gcp).1 = some lc ∧
    (ConfigCache.TTL ≤ d →
      (ConfigCache.get (ConfigCache.set st root lc gcp now) (now + d) root gcp).1 = none ∧
      ((ConfigCache.get (ConfigCache.set st root lc gcp now) (now + d) root gcp).2).lookup
        (ConfigCache.getCacheKey root gcp) = none) ∧
    (ConfigCache.stats st now).1.1 =
      (st.filter (fun p => ConfigCache.isValid now p.2)).length := by
  refine ⟨?_, ?_, rfl⟩
  · simp [ConfigCache.get, ConfigCache.set, lookup_mapSet_self, ConfigCache.isValid,
      ConfigCache.TTL]
  · intro hd
    have hlook := lookup_mapSet_self st (ConfigCache.getCacheKey root gcp)
      { config := lc, timestamp := now }
    simp [ConfigCache.get, ConfigCache.set, hlook, ConfigCache.isValid,
      Nat.add_sub_cancel_left, Nat.not_lt.mpr hd, lookup_mapDelete_self]

/-- Witness for C6 at a concrete cache, key and clock. -/
theorem configCache_get_set_ttl_witness :
    (ConfigCache.get (ConfigCache.set [] "/p" ⟨⟨none, none, none, none⟩, none⟩ none 0)
        0 "/p" none).1 = some ⟨⟨none, none, none, none⟩, none⟩ ∧
    (ConfigCache.get (ConfigCache.set [] "/p" ⟨⟨none, none, none, none⟩, none⟩ none 0)
        300000 "/p" none).1 = none :=
  ⟨(configCache_get_set_ttl [] "/p" none ⟨⟨none, none, none, none⟩, none⟩ 0 300000).1,
   (((configCache_get_set_ttl [] "/p" none ⟨⟨none, none, none, none⟩, none⟩ 0 300000).2.1
      (by decide)).1.trans rfl)⟩

/-- C10: an empty-string global config path is treated exactly like an absent
one — both produce the sentinel key component `none`, so `get`, `set` and
`invalidate` address the same cache entry in either form. -/
theorem cacheKey_empty_global (st : ConfigCache.CacheState) (root : String)
    (lc : LoadedConfig) (now : Nat) :
    ConfigCache.getCacheKey root (some "") = ConfigCache.getCacheKey root none ∧
    ConfigCache.get st now root (some "") = ConfigCache.get st now root none ∧
    ConfigCache.set st root lc (some "") now = ConfigCache.set st root lc none now ∧
    ConfigCache.invalidate st root (some "") = ConfigCache.invalidate st root none := by
  have hk : ConfigCache.getCacheKey root (some "") = ConfigCache.getCacheKey root none := by
    simp [ConfigCache.getCacheKey]
  exact ⟨hk, by simp [ConfigCache.get, hk], by simp [ConfigCache.set, hk],
    by simp [ConfigCache.invalidate, hk]⟩

/-! Embedding of `deduplicatePaths` of src/utils.ts. -/

/-- Embedding of the normalization `p.replace(/\\/g, "/")`: every backslash
character becomes a forward slash. -/
def normalizePath (p : String) : String :=
  ⟨p.data.map (fun c => if c = '\\' then '/' else c)⟩

/-- JS `String.prototype.startsWith`, on the underlying character lists. -/
def strStartsWith (q s : String) : Bool :=
  q.data.isPrefixOf s.data

/-- The containment check of the keep-loop:
`p === k || p.startsWith(k + "/")`. -/
def dedupCovers (k p : String) : Bool :=
  p == k || strStartsWith (k ++ "/") p

/-- The sort order of `deduplicatePaths`: the JS comparator
`(a, b) => a.length - b.length`, i.e. ascending string length. -/
def lenle (a b : String) : Prop :=
  a.length ≤ b.length

instance : DecidableRel lenle := fun a b => Nat.decLe a.length b.length

instance : IsTotal String lenle := ⟨fun a b => Nat.le_total a.length b.length⟩

instance : IsTrans String lenle := ⟨fun _ _ _ h h2 => Nat.le_trans h h2⟩

/-- The keep-loop of `deduplicatePaths`: walk the sorted list, keeping each
path that is neither equal to nor nested under an already-kept path. -/
def dedupGo (kept : List String) : List String → List String
  | [] => kept
  | p :: rest =>
      if kept.any (fun k => dedupCovers k p) then dedupGo kept rest
      else dedupGo (kept ++ [p]) rest

/-- Embedding of `deduplicatePaths`: normalize backslashes, sort by length
ascending, then run the keep-loop.  ES2019 `Array.prototype.sort` is a stable
sort, and a stable sort is extensionally unique, so it is modelled by the
(stable) insertion sort under the same comparator. -/
def deduplicatePaths (paths : List String) : List String :=
  dedupGo [] ((paths.map normalizePath).insertionSort lenle)

/-- A successful `startsWith` bounds the lengths. -/
theorem strStartsWith_length {q s : String} (h : strStartsWith q s = true) :
    q.length ≤ s.length := by
  have hp : q.data <+: s.data := by
    unfold strStartsWith at h
    exact List.isPrefixOf_iff_prefix.mp h
  exact hp.length_le

/-- Every path covers itself (via the equality disjunct). -/
theorem dedupCovers_self (p : String) : dedupCovers p p = true := by
  simp [dedupCovers]

/-- The keep-loop only ever appends: its result is `kept` followed by some
sublist of the input. -/
theorem dedupGo_sublist (l : List String) :
    ∀ kept, ∃ l', l'.Sublist l ∧ dedupGo kept l = kept ++ l' := by
  induction l with
  | nil => exact fun kept => ⟨[], List.nil_sublist [], by simp [dedupGo]⟩
  | cons p rest ih =>
      intro kept
      by_cases h : kept.any (fun k => dedupCovers k p) = true
      · obtain ⟨l', hsub, heq⟩ := ih kept
        exact ⟨l', hsub.cons p, by simp [dedupGo, h, heq]⟩
      · obtain ⟨l', hsub, heq⟩ := ih (kept ++ [p])
        refine ⟨p :: l', hsub.cons₂ p, ?_⟩
        simp [dedupGo, h, heq]

/-- Everything already kept survives the keep-loop. -/
theorem dedupGo_mono {kept l : List String} {x : String} (hx : x ∈ kept) :
    x ∈ dedupGo kept l := by
  obtain ⟨l', _, heq⟩ := dedupGo_sublist l kept
  rw [heq]
  exact List.mem_append_left l' hx

/-- Every path fed to the keep-loop ends up covered by some kept path. -/
theorem dedupGo_covers (l : List String) :
    ∀ kept, ∀ p ∈ l, ∃ k ∈ dedupGo kept l, dedupCovers k p = true := by
  induction l with
  | nil => intro kept p hp; cases hp
  | cons q rest ih =>
      intro kept p hp
      by_cases h : kept.any (fun k => dedupCovers k q) = true
      · rcases List.mem_cons.mp hp with rfl | hp'
        · obtain ⟨k, hk, hkp⟩ := List.any_eq_true.mp h
          exact ⟨k, by simpa [dedupGo, h] using dedupGo_mono (l := rest) hk, hkp⟩
        · obtain ⟨k, hk, hkp⟩ := ih kept p hp'
          exact ⟨k, by simpa [dedupGo, h] using hk, hkp⟩
      · rcases List.mem_cons.mp hp with rfl | hp'
        · refine ⟨p, ?_, dedupCovers_self p⟩
          have : p ∈ kept ++ [p] := List.mem_append_right kept (by simp)
          simpa [dedupGo, h] using dedupGo_mono (l := rest) this
        · obtain ⟨k, hk, hkp⟩ := ih (kept ++ [q]) p hp'
          exact ⟨k, by simpa [dedupGo, h] using hk, hkp⟩

/-- Invariant of the keep-loop: on a length-sorted input, the kept paths are
pairwise non-nested (in both directions, hence also pairwise distinct). -/
theorem dedupGo_pairwise (l : List String) :
    ∀ kept, (kept ++ l).Pairwise lenle →
      kept.Pairwise (fun a b => dedupCovers a b = false ∧ dedupCovers b a = false) →
      (dedupGo kept l).Pairwise
        (fun a b => dedupCovers a b = false ∧ dedupCovers b a = false) := by
  induction l with
  | nil => intro kept _ hgood; simpa [dedupGo] using hgood
  | cons p rest ih =>
      intro kept hsort hgood
      have hsort' : (kept ++ rest).Pairwise lenle :=
        List.Pairwise.sublist ((List.sublist_cons_self p rest).append_left kept) hsort
      by_cases h : kept.any (fun k => dedupCovers k p) = true
      · rw [show dedupGo kept (p :: rest) = dedupGo kept rest from by simp [dedupGo, h]]
        exact ih kept hsort' hgood
      · have hfalse : ∀ k ∈ kept, dedupCovers k p = false := by
          intro k hk
          have h2 := List.any_eq_false.mp (by simpa using h) k hk
          simpa using h2
        have hlen : ∀ k ∈ kept, k.length ≤ p.length := by
          intro k hk
          exact (List.pairwise_append.mp hsort).2.2 k hk p (List.mem_cons_self p rest)
        have hrev : ∀ a ∈ kept, dedupCovers p a = false := by
          intro a ha
          have hne : (a == p) = false := by
            apply beq_eq_false_iff_ne.mpr
            intro heq
            have hc := hfalse a ha
            rw [heq] at hc
            simp [dedupCovers_self] at hc
          cases hsw : strStartsWith (p ++ "/") a with
          | false => simp [dedupCovers, hne, hsw]
          | true =>
              exfalso
              have h1 := strStartsWith_length hsw
              rw [String.length_append] at h1
              have h2 : ("/" : String).length = 1 := by decide
              rw [h2] at h1
              have h3 := hlen a ha
              omega
        have hgood' : (kept ++ [p]).Pairwise
            (fun a b => dedupCovers a b = false ∧ dedupCovers b a = false) := by
          refine List.pairwise_append.mpr ⟨hgood, List.pairwise_singleton _ p, ?_⟩
          intro a ha b hb
          rw [List.mem_singleton.mp hb]
          exact ⟨hfalse a ha, hrev a ha⟩
        have hsort2 : ((kept ++ [p]) ++ rest).Pairwise lenle := by
          rw [List.append_assoc]
          simpa using hsort
        rw [show dedupGo kept (p :: rest) = dedupGo (kept ++ [p]) rest from by
          simp [dedupGo, h]]
        exact ih (kept ++ [p]) hsort2 hgood'

/-- Running the keep-loop on an input with no containment between any two
paths (and none by the kept paths) appends the whole input. -/
theorem dedupGo_disjoint (l : List String) :
    ∀ kept, (∀ k ∈ kept, ∀ p ∈ l, dedupCovers k p = false) →
      l.Pairwise (fun a b => dedupCovers a b = false) →
      dedupGo kept l = kept ++ l := by
  induction l with
  | nil => intro kept _ _; simp [dedupGo]
  | cons p rest ih =>
      intro kept hdisj hpair
      have hany : kept.any (fun k => dedupCovers k p) = false := by
        apply List.any_eq_false.mpr
        intro k hk
        simp [hdisj k hk p (List.mem_cons_self p rest)]
      have hpc := List.pairwise_cons.mp hpair
      rw [show dedupGo kept (p :: rest) = dedupGo (kept ++ [p]) rest from by
        simp [dedupGo, hany]]
      rw [ih (kept ++ [p]) ?_ hpc.2]
      · simp
      · intro k hk q hq
        rcases List.mem_append.mp hk with hk' | hk'
        · exact hdisj k hk' q (List.mem_cons_of_mem p hq)
        · rw [List.mem_singleton.mp hk']
          exact hpc.1 q hq

/-- Normalization is idempotent: a second pass finds no backslash to replace. -/
theorem normalizePath_idem (p : String) :
    normalizePath (normalizePath p) = normalizePath p := by
  unfold normalizePath
  congr 1
  simp only [List.map_map]
  apply List.map_congr_left
  intro c _
  by_cases hc : c = '\\' <;> simp [hc, Function.comp]

/-- Elements of the output are (backslash-normalized) input paths. -/
theorem deduplicatePaths_mem {paths : List String} {s : String}
    (hs : s ∈ deduplicatePaths paths) : s ∈ paths.map normalizePath := by
  unfold deduplicatePaths at hs
  obtain ⟨l', hsub, heq⟩ := dedupGo_sublist ((paths.map normalizePath).insertionSort lenle) []
  rw [heq] at hs
  simp only [List.nil_append] at hs
  exact (List.perm_insertionSort lenle _).mem_iff.mp (hsub.subset hs)

/-- The output of `deduplicatePaths` is pairwise non-nested. -/
theorem deduplicatePaths_pairwise (paths : List String) :
    (deduplicatePaths paths).Pairwise
      (fun a b => dedupCovers a b = false ∧ dedupCovers b a = false) := by
  unfold deduplicatePaths
  apply dedupGo_pairwise
  · simpa [List.Sorted] using List.sorted_insertionSort lenle (paths.map normalizePath)
  · exact List.Pairwise.nil

/-- The output of `deduplicatePaths` is still sorted by ascending length. -/
theorem deduplicatePaths_sorted (paths : List String) :
    List.Sorted lenle (deduplicatePaths paths) := by
  unfold deduplicatePaths
  obtain ⟨l', hsub, heq⟩ := dedupGo_sublist ((paths.map normalizePath).insertionSort lenle) []
  rw [heq]
  simp only [List.nil_append]
  exact List.Pairwise.sublist hsub
    (by simpa [List.Sorted] using List.sorted_insertionSort lenle (paths.map normalizePath))

/-- C5: `deduplicatePaths` returns backslash-normalized input paths with no
duplicates, in which no returned path is a separator-bounded prefix-directory
of another returned path; every input path is either itself in the output
(after normalization) or sits under an ancestor directory in the output; and
the two concrete examples of the specification hold (sibling non-separator
prefixes such as `ab` / `abc` are not merged). -/
theorem deduplicatePaths_spec (paths : List String) :
    (deduplicatePaths paths).Pairwise
      (fun a b => a ≠ b ∧ strStartsWith (a ++ "/") b = false ∧
        strStartsWith (b ++ "/") a = false) ∧
    (∀ p ∈ paths, normalizePath p ∈ deduplicatePaths paths ∨
      ∃ k ∈ deduplicatePaths paths,
        strStartsWith (k ++ "/") (normalizePath p) = true) ∧
    (deduplicatePaths paths).Nodup ∧
    (∀ s ∈ deduplicatePaths paths, s ∈ paths.map normalizePath) ∧
    deduplicatePaths ["a", "a/b", "a/b/c", "x"] = ["a", "x"] ∧
    deduplicatePaths ["ab", "abc", "ab/c"] = ["ab", "abc"] := by
  refine ⟨?_, ?_, ?_, fun s hs => deduplicatePaths_mem hs, by decide, by decide⟩
  · refine (deduplicatePaths_pairwise paths).imp ?_
    intro a b hab
    obtain ⟨h1, h2⟩ := hab
    have h1' : ¬b = a ∧ strStartsWith (a ++ "/") b = false := by
      simpa [dedupCovers] using h1
    have h2' : ¬a = b ∧ strStartsWith (b ++ "/") a = false := by
      simpa [dedupCovers] using h2
    exact ⟨h2'.1, h1'.2, h2'.2⟩
  · intro p hp
    have hmem : normalizePath p ∈ (paths.map normalizePath).insertionSort lenle := by
      rw [(List.perm_insertionSort lenle (paths.map normalizePath)).mem_iff]
      exact List.mem_map_of_mem normalizePath hp
    obtain ⟨k, hk, hcov⟩ := dedupGo_covers _ [] (normalizePath p) hmem
    have hcov' : normalizePath p = k ∨ strStartsWith (k ++ "/") (normalizePath p) = true := by
      simpa [dedupCovers] using hcov
    rcases hcov' with heq | hsw
    · exact Or.inl (by rw [heq]; exact hk)
    · exact Or.inr ⟨k, hk, hsw⟩
  · show (deduplicatePaths paths).Pairwise (fun a b => a ≠ b)
    refine (deduplicatePaths_pairwise paths).imp ?_
    intro a b hab
    obtain ⟨_, h2⟩ := hab
    have h2' : ¬a = b ∧ strStartsWith (b ++ "/") a = false := by
      simpa [dedupCovers] using h2
    exact h2'.1

/-- Witness for C5: the nested path `a/b` of a concrete input is covered by
the returned ancestor `a`. -/
theorem deduplicatePaths_spec_witness :
    normalizePath "a/b" ∈ deduplicatePaths ["a", "a/b"] ∨
      ∃ k ∈ deduplicatePaths ["a", "a/b"],
        strStartsWith (k ++ "/") (normalizePath "a/b") = true :=
  (deduplicatePaths_spec ["a", "a/b"]).2.1 "a/b" (by decide)

/-- C8: `deduplicatePaths` is idempotent — its output is already normalized,
already sorted by length, and pairwise non-nested, so a second run keeps
every path. -/
theorem deduplicatePaths_idempotent (X : List String) :
    deduplicatePaths (deduplicatePaths X) = deduplicatePaths X := by
  have hmapid : (deduplicatePaths X).map normalizePath = deduplicatePaths X := by
    have hfix : ∀ s ∈ deduplicatePaths X, normalizePath s = s := by
      intro s hs
      obtain ⟨x, _, rfl⟩ := List.mem_map.mp (deduplicatePaths_mem hs)
      exact normalizePath_idem x
    calc (deduplicatePaths X).map normalizePath
        = (deduplicatePaths X).map id := List.map_congr_left hfix
      _ = deduplicatePaths X := List.map_id _
  have hsorted : List.Sorted lenle (deduplicatePaths X) := deduplicatePaths_sorted X
  show dedupGo [] (((deduplicatePaths X).map normalizePath).insertionSort lenle) =
    deduplicatePaths X
  rw [hmapid, hsorted.insertionSort_eq]
  rw [dedupGo_disjoint (deduplicatePaths X) []
    (fun k hk => absurd hk (List.not_mem_nil k))
    ((deduplicatePaths_pairwise X).imp (fun h => h.1))]
  simp

/-! Embedding of `resolveExtends` of src/config.ts. -/

/-- What loading-and-validating one on-disk file can yield, as seen through
`existsSync` + cosmiconfig `load` + `configSchema.safeParse`: a path not in
the environment's list does not exist; `unloadable` is a `load` returning
null; `invalid` is a schema-validation failure; `valid` carries the parsed
configuration. -/
inductive FileContent
  | unloadable
  | invalid
  | valid (c : PurgoConfig)
deriving DecidableEq, Repr

/-- Environment of the extends resolver: the filesystem as a map from
absolute path to content, plus the external path functions of node:path —
`resolvePath cwd p` models `resolve(cwd, p)` and `parentDir p` models
`resolve(p, "..")`. -/
structure ExtEnv where
  fs : List (String × FileContent)
  resolvePath : String → String → String
  parentDir : String → String

/-- Errors thrown by the configuration engine.  `fuelExhausted` is an
artifact of the fuel-bounded embedding of the recursion; it is proved
unreachable once the fuel exceeds the number of files on disk. -/
inductive LoadError
  | cycle (path : String)
  | notFound (path : String)
  | loadFailed (path : String)
  | invalidExtends (path : String)
  | invalidGlobal (path : String)
  | invalidWorkspace
  | invalidPackageJson
  | fuelExhausted
deriving DecidableEq, Repr

/-- Normalization of the `extends` field to a list:
`config.extends ? (Array.isArray(...) ? config.extends : [config.extends]) : []`. -/
def extendList (c : PurgoConfig) : List String :=
  match c.extends_ with
  | none => []
  | some (.inl s) => [s]
  | some (.inr l) => l

/-- The `for (const extendPath of extendList)` loop skeleton: thread the
accumulator through `step`, aborting on the first error (a JS `throw`). -/
def foldSteps {α : Type} (step : α → String → Except LoadError α) :
    List String → α → Except LoadError α
  | [], acc => .ok acc
  | e :: rest, acc =>
      match step acc e with
      | .error err => .error err
      | .ok acc2 => foldSteps step rest acc2

/-- Embedding of `resolveExtends(config, cwd, visited)`, fuel-bounded on the
recursion depth.  The accumulator starts as the config itself
(`let merged = { ...config }`); each entry is resolved against `cwd`, checked
against the shared `visited` set (cycle error), looked up on disk (not-found /
load / validation errors), recursively resolved against its own directory
with the same `visited` set, and merged below the accumulator
(`merged = mergeConfigs(resolvedExtended, merged)`).  The updated visited set
is returned so that, as with the by-reference JS `Set`, additions made inside
one entry's subtree persist for the following (sibling) entries. -/
def resolveExtends (env : ExtEnv) :
    Nat → PurgoConfig → String → List String →
      Except LoadError (PurgoConfig × List String)
  | 0 => fun _ _ _ => .error .fuelExhausted
  | fuel + 1 => fun config cwd visited =>
      foldSteps
        (fun acc e =>
          let absolutePath := env.resolvePath cwd e
          if absolutePath ∈ acc.2 then .error (.cycle absolutePath)
          else
            match env.fs.lookup absolutePath with
            | none => .error (.notFound absolutePath)
            | some .unloadable => .error (.loadFailed absolutePath)
            | some .invalid => .error (.invalidExtends absolutePath)
            | some (.valid c) =>
                match resolveExtends env fuel c (env.parentDir absolutePath)
                    (absolutePath :: acc.2) with
                | .error err => .error err
                | .ok (resolved, visited2) => .ok (mergeConfigs resolved acc.1, visited2))
        (extendList config) (config, visited)

/-- The body of one iteration of the `resolveExtends` loop, as a standalone
function (identical to the lambda inside `resolveExtends`). -/
def resolveStep (env : ExtEnv) (fuel : Nat) (cwd : String)
    (acc : PurgoConfig × List String) (e : String) :
    Except LoadError (PurgoConfig × List String) :=
  if env.resolvePath cwd e ∈ acc.2 then .error (.cycle (env.resolvePath cwd e))
  else
    match env.fs.lookup (env.resolvePath cwd e) with
    | none => .error (.notFound (env.resolvePath cwd e))
    | some .unloadable => .error (.loadFailed (env.resolvePath cwd e))
    | some .invalid => .error (.invalidExtends (env.resolvePath cwd e))
    | some (.valid c) =>
        match resolveExtends env fuel c (env.parentDir (env.resolvePath cwd e))
            (env.resolvePath cwd e :: acc.2) with
        | .error err => .error err
        | .ok (resolved, visited2) => .ok (mergeConfigs resolved acc.1, visited2)

/-- Unfolding of `resolveExtends` at positive fuel into the loop skeleton. -/
theorem resolveExtends_succ (env : ExtEnv) (fuel : Nat) (config : PurgoConfig)
    (cwd : String) (visited : List String) :
    resolveExtends env (fuel + 1) config cwd visited =
      foldSteps (resolveStep env fuel cwd) (extendList config) (config, visited) := rfl

/-- Unfolding of `resolveExtends` at zero fuel. -/
theorem resolveExtends_zero (env : ExtEnv) (config : PurgoConfig)
    (cwd : String) (visited : List String) :
    resolveExtends env 0 config cwd visited = .error .fuelExhausted := rfl

/-- The set of absolute paths that exist on disk. -/
def fsKeys (env : ExtEnv) : Finset String :=
  (env.fs.map Prod.fst).toFinset

/-- How many on-disk paths have not been visited yet; the recursion-depth
measure of the resolver. -/
def remaining (env : ExtEnv) (visited : List String) : Nat :=
  (fsKeys env \ visited.toFinset).card

/-- A successful association-list lookup means the key is among the keys. -/
theorem lookup_mem_fst {l : List (String × FileContent)} {abs : String}
    {fc : FileContent} (h : l.lookup abs = some fc) : abs ∈ l.map Prod.fst := by
  induction l with
  | nil => simp [List.lookup] at h
  | cons a rest ih =>
      obtain ⟨k, v⟩ := a
      by_cases habs : abs = k
      · simp [habs]
      · have hne : (abs == k) = false := beq_eq_false_iff_ne.mpr habs
        simp only [List.lookup, hne] at h
        exact List.mem_cons_of_mem k (ih h)

/-- A successful lookup means the path exists on disk. -/
theorem lookup_mem_keys {env : ExtEnv} {abs : String} {fc : FileContent}
    (h : env.fs.lookup abs = some fc) : abs ∈ fsKeys env := by
  unfold fsKeys
  rw [List.mem_toFinset]
  exact lookup_mem_fst h

/-- Visiting an unvisited on-disk path strictly shrinks the measure. -/
theorem remaining_cons_lt {env : ExtEnv} {visited : List String} {abs : String}
    (hmem : abs ∈ fsKeys env) (hnot : abs ∉ visited) :
    remaining env (abs :: visited) < remaining env visited := by
  unfold remaining
  rw [List.toFinset_cons, Finset.sdiff_insert]
  exact Finset.card_erase_lt_of_mem
    (Finset.mem_sdiff.mpr ⟨hmem, by simpa using hnot⟩)

/-- Growing the visited set cannot grow the measure. -/
theorem remaining_mono {env : ExtEnv} {v1 v2 : List String} (h : v1 ⊆ v2) :
    remaining env v2 ≤ remaining env v1 := by
  unfold remaining
  apply Finset.card_le_card
  apply Finset.sdiff_subset_sdiff (Finset.Subset.refl _)
  intro x hx
  rw [List.mem_toFinset] at hx ⊢
  exact h hx

/-- A successful run of the loop skeleton relates the initial and final
accumulators by any reflexive-transitive relation preserved by the step. -/
theorem foldSteps_ok_rel {α : Type} (R : α → α → Prop) (hrefl : ∀ a, R a a)
    (htrans : ∀ a b c, R a b → R b c → R a c)
    (step : α → String → Except LoadError α)
    (hstep : ∀ acc e acc2, step acc e = .ok acc2 → R acc acc2) :
    ∀ entries acc acc', foldSteps step entries acc = .ok acc' → R acc acc' := by
  intro entries
  induction entries with
  | nil =>
      intro acc acc' h
      simp only [foldSteps, Except.ok.injEq] at h
      exact h ▸ hrefl acc
  | cons e rest ih =>
      intro acc acc' h
      cases hs : step acc e with
      | error err => simp [foldSteps, hs] at h
      | ok acc2 =>
          simp only [foldSteps, hs] at h
          exact htrans acc acc2 acc' (hstep acc e acc2 hs) (ih acc2 acc' h)

/-- The loop skeleton never produces a given error if no step can produce it
from an invariant-respecting accumulator and steps preserve the invariant. -/
theorem foldSteps_no_err {α : Type} (Inv : α → Prop) (bad : LoadError)
    (step : α → String → Except LoadError α)
    (hstep_err : ∀ acc e, Inv acc → step acc e ≠ .error bad)
    (hstep_inv : ∀ acc e acc2, Inv acc → step acc e = .ok acc2 → Inv acc2) :
    ∀ entries acc, Inv acc → foldSteps step entries acc ≠ .error bad := by
  intro entries
  induction entries with
  | nil => intro acc _ h; simp [foldSteps] at h
  | cons e rest ih =>
      intro acc hinv h
      cases hs : step acc e with
      | error err =>
          simp only [foldSteps, hs, Except.error.injEq] at h
          exact hstep_err acc e hinv (hs.trans (by rw [h]))
      | ok acc2 =>
          simp only [foldSteps, hs] at h
          exact ih acc2 (hstep_inv acc e acc2 hinv hs) h

/-- Characterization of a successful loop step: the path was unvisited, on
disk and valid, its own chain resolved successfully with the shared set, and
the result was merged below the accumulator. -/
theorem resolveStep_ok {env : ExtEnv} {fuel : Nat} {cwd : String}
    {acc acc2 : PurgoConfig × List String} {e : String}
    (h : resolveStep env fuel cwd acc e = .ok acc2) :
    ∃ c resolved visited2,
      env.resolvePath cwd e ∉ acc.2 ∧
      env.fs.lookup (env.resolvePath cwd e) = some (.valid c) ∧
      resolveExtends env fuel c (env.parentDir (env.resolvePath cwd e))
        (env.resolvePath cwd e :: acc.2) = .ok (resolved, visited2) ∧
      acc2 = (mergeConfigs resolved acc.1, visited2) := by
  unfold resolveStep at h
  by_cases hmem : env.resolvePath cwd e ∈ acc.2
  · rw [if_pos hmem] at h
    simp at h
  · rw [if_neg hmem] at h
    cases hlook : env.fs.lookup (env.resolvePath cwd e) with
    | none => rw [hlook] at h; simp at h
    | some fc =>
        rw [hlook] at h
        cases fc with
        | unloadable => simp at h
        | invalid => simp at h
        | valid c =>
            simp only at h
            cases hin : resolveExtends env fuel c
                (env.parentDir (env.resolvePath cwd e))
                (env.resolvePath cwd e :: acc.2) with
            | error err => rw [hin] at h; simp at h
            | ok pr =>
                obtain ⟨resolved, visited2⟩ := pr
                rw [hin] at h
                simp only [Except.ok.injEq] at h
                exact ⟨c, resolved, visited2, hmem, rfl, hin, h.symm⟩

/-- The visited set only ever grows across a successful resolution; this is
the by-reference sharing of the JS `Set` across sibling branches. -/
theorem resolveExtends_visited_mono (env : ExtEnv) :
    ∀ fuel config cwd visited r v',
      resolveExtends env fuel config cwd visited = .ok (r, v') → visited ⊆ v' := by
  intro fuel
  induction fuel with
  | zero => intro config cwd visited r v' h; simp [resolveExtends_zero] at h
  | succ fuel ih =>
      intro config cwd visited r v' h
      rw [resolveExtends_succ] at h
      refine foldSteps_ok_rel (fun a b => a.2 ⊆ b.2) (fun a => List.Subset.refl _)
        (fun a b c h1 h2 => List.Subset.trans h1 h2) (resolveStep env fuel cwd)
        ?_ (extendList config) (config, visited) (r, v') h
      intro acc e acc2 hs
      obtain ⟨c, resolved, visited2, _, _, hin, hacc2⟩ := resolveStep_ok hs
      have hsub := ih c (env.parentDir (env.resolvePath cwd e))
        (env.resolvePath cwd e :: acc.2) resolved visited2 hin
      rw [hacc2]
      exact fun x hx => hsub (List.mem_cons_of_mem _ hx)

/-- With fuel above the number of unvisited on-disk files, the resolver never
hits the fuel bound: the real recursion terminates on every input, cyclic or
not (cycles are cut by the cycle error instead). -/
theorem resolveExtends_no_fuelExhausted (env : ExtEnv) :
    ∀ fuel config cwd visited, remaining env visited < fuel →
      resolveExtends env fuel config cwd visited ≠ .error .fuelExhausted := by
  intro fuel
  induction fuel with
  | zero => intro config cwd visited h; exact absurd h (Nat.not_lt_zero _)
  | succ fuel ih =>
      intro config cwd visited hlt
      rw [resolveExtends_succ]
      refine foldSteps_no_err (fun acc => remaining env acc.2 ≤ fuel) .fuelExhausted
        (resolveStep env fuel cwd) ?_ ?_ (extendList config) (config, visited)
        (Nat.lt_succ_iff.mp hlt)
      · intro acc e hinv hbad
        unfold resolveStep at hbad
        by_cases hmem : env.resolvePath cwd e ∈ acc.2
        · rw [if_pos hmem] at hbad; simp at hbad
        · rw [if_neg hmem] at hbad
          cases hlook : env.fs.lookup (env.resolvePath cwd e) with
          | none => rw [hlook] at hbad; simp at hbad
          | some fc =>
              rw [hlook] at hbad
              cases fc with
              | unloadable => simp at hbad
              | invalid => simp at hbad
              | valid c =>
                  simp only at hbad
                  have habs : env.resolvePath cwd e ∈ fsKeys env := lookup_mem_keys hlook
                  have hrem : remaining env (env.resolvePath cwd e :: acc.2) < fuel :=
                    Nat.lt_of_lt_of_le (remaining_cons_lt habs hmem) hinv
                  cases hin : resolveExtends env fuel c
                      (env.parentDir (env.resolvePath cwd e))
                      (env.resolvePath cwd e :: acc.2) with
                  | error err =>
                      rw [hin] at hbad
                      simp only [Except.error.injEq] at hbad
                      exact ih c _ _ hrem (hin.trans (by rw [hbad]))
                  | ok pr =>
                      obtain ⟨resolved, visited2⟩ := pr
                      rw [hin] at hbad
                      simp at hbad
      · intro acc e acc2 hinv hs
        obtain ⟨c, resolved, visited2, hmem, hlook, hin, hacc2⟩ := resolveStep_ok hs
        have hsub := resolveExtends_visited_mono env fuel c
          (env.parentDir (env.resolvePath cwd e)) (env.resolvePath cwd e :: acc.2)
          resolved visited2 hin
        have h1 : remaining env visited2 ≤
            remaining env (env.resolvePath cwd e :: acc.2) := remaining_mono hsub
        have h2 := remaining_cons_lt (lookup_mem_keys hlook) hmem
        rw [hacc2]
        exact le_trans h1 (le_of_lt (Nat.lt_of_lt_of_le h2 hinv))

/-- All explicitly present fields of `root` (arrays wholesale, hook commands
per-subfield) appear unchanged in `r`. -/
def keepsExplicit (root r : PurgoConfig) : Prop :=
  (root.targets.isSome → r.targets = root.targets) ∧
  (root.ignore.isSome → r.ignore = root.ignore) ∧
  (root.extends_.isSome → r.extends_ = root.extends_) ∧
  ((hookPre root).isSome → hookPre r = hookPre root) ∧
  ((hookPost root).isSome → hookPost r = hookPost root)

/-- Field preservation is reflexive. -/
theorem keepsExplicit_refl (c : PurgoConfig) : keepsExplicit c c :=
  ⟨fun _ => rfl, fun _ => rfl, fun _ => rfl, fun _ => rfl, fun _ => rfl⟩

/-- One field-preservation step composes transitively. -/
theorem option_keep_trans {α : Type} {x y z : Option α}
    (f1 : x.isSome → y = x) (f2 : y.isSome → z = y) : x.isSome → z = x := by
  intro hs
  have ha := f1 hs
  have hb : y.isSome := by rw [ha]; exact hs
  exact (f2 hb).trans ha

/-- Field preservation is transitive. -/
theorem keepsExplicit_trans {a b c : PurgoConfig} (h1 : keepsExplicit a b)
    (h2 : keepsExplicit b c) : keepsExplicit a c :=
  ⟨option_keep_trans h1.1 h2.1,
   option_keep_trans h1.2.1 h2.2.1,
   option_keep_trans h1.2.2.1 h2.2.2.1,
   option_keep_trans h1.2.2.2.1 h2.2.2.2.1,
   option_keep_trans h1.2.2.2.2 h2.2.2.2.2⟩

/-- Merging anything below a configuration keeps its explicit fields. -/
theorem keepsExplicit_merge (b o : PurgoConfig) : keepsExplicit o (mergeConfigs b o) := by
  obtain ⟨ot, oi, oe, oh⟩ := o
  obtain ⟨bt, bi, be, bh⟩ := b
  refine ⟨?_, ?_, ?_, ?_, ?_⟩
  · intro hs
    cases ot with
    | none => simp at hs
    | some t => simp [mergeConfigs]
  · intro hs
    cases oi with
    | none => simp at hs
    | some t => simp [mergeConfigs]
  · intro hs
    cases oe with
    | none => simp at hs
    | some t => simp [mergeConfigs]
  · intro hs
    cases oh with
    | none => simp [hookPre] at hs
    | some ho =>
        cases bh with
        | none => simp [mergeConfigs, hookPre]
        | some hb =>
            cases hpo : ho.preClean with
            | none => simp [hookPre, hpo] at hs
            | some x => simp [mergeConfigs, hookPre, hpo]
  · intro hs
    cases oh with
    | none => simp [hookPost] at hs
    | some ho =>
        cases bh with
        | none => simp [mergeConfigs, hookPost]
        | some hb =>
            cases hpo : ho.postClean with
            | none => simp [hookPost, hpo] at hs
            | some x => simp [mergeConfigs, hookPost, hpo]

/-- Fields already in the loop accumulator survive all later entries: each
later entry is merged below the accumulator. -/
theorem foldSteps_keepsExplicit (env : ExtEnv) (fuel : Nat) (cwd : String) :
    ∀ entries merged visited r v',
      foldSteps (resolveStep env fuel cwd) entries (merged, visited) = .ok (r, v') →
      keepsExplicit merged r := by
  intro entries merged visited r v' h
  refine foldSteps_ok_rel (fun a b : PurgoConfig × List String => keepsExplicit a.1 b.1)
    (fun a => keepsExplicit_refl a.1)
    (fun a b c h1 h2 => keepsExplicit_trans h1 h2)
    (resolveStep env fuel cwd) ?_ entries (merged, visited) (r, v') h
  intro acc e acc2 hs
  obtain ⟨c, resolved, visited2, _, _, _, hacc2⟩ := resolveStep_ok hs
  rw [hacc2]
  exact keepsExplicit_merge resolved acc.1

/-- A successful resolution keeps the root's explicit fields. -/
theorem resolveExtends_keepsExplicit (env : ExtEnv) (fuel : Nat)
    (config : PurgoConfig) (cwd : String) (visited : List String)
    (r : PurgoConfig) (v' : List String)
    (h : resolveExtends env fuel config cwd visited = .ok (r, v')) :
    keepsExplicit config r := by
  cases fuel with
  | zero => simp [resolveExtends_zero] at h
  | succ fuel =>
      rw [resolveExtends_succ] at h
      exact foldSteps_keepsExplicit env fuel cwd (extendList config) config visited r v' h

/-- C3: the resolver's recursion depth is bounded by the number of on-disk
files, so with fuel above `remaining` the fuel-exhaustion artifact never
occurs (every chain, of any finite depth, terminates); whenever resolution
returns a configuration, every field explicitly present in the root config
appears unchanged (targets/ignore/extends wholesale, hooks per-subfield);
and, at loop level, fields already accumulated — in particular those
contributed by earlier extends entries — survive all later entries. -/
theorem resolveExtends_terminates_root_wins (env : ExtEnv) (fuel : Nat)
    (config : PurgoConfig) (cwd : String) (visited : List String) :
    (remaining env visited < fuel →
      resolveExtends env fuel config cwd visited ≠ .error .fuelExhausted) ∧
    (∀ r v', resolveExtends env fuel config cwd visited = .ok (r, v') →
      keepsExplicit config r) ∧
    (∀ entries merged r v',
      foldSteps (resolveStep env fuel cwd) entries (merged, visited) = .ok (r, v') →
      keepsExplicit merged r) :=
  ⟨fun h => resolveExtends_no_fuelExhausted env fuel config cwd visited h,
   fun r v' h => resolveExtends_keepsExplicit env fuel config cwd visited r v' h,
   fun entries merged r v' h => foldSteps_keepsExplicit env fuel cwd entries merged visited r v' h⟩

/-- A two-file environment with one extends edge, for concrete runs. -/
def envW : ExtEnv :=
  { fs := [("/w/base", .valid ⟨some ["b"], some ["ib"], none, none⟩)]
    resolvePath := fun _ p => p
    parentDir := fun _ => "/w" }

/-- A root configuration extending `/w/base` and overriding `targets`. -/
def cfgW : PurgoConfig := ⟨some ["r"], none, some (.inl "/w/base"), none⟩

/-- Witness for C3 on a depth-one chain: no fuel exhaustion at fuel 2, and
the root's explicit `targets` survives while the base's `ignore` is
inherited. -/
theorem resolveExtends_terminates_root_wins_witness :
    resolveExtends envW 2 cfgW "/w" [] ≠ .error .fuelExhausted ∧
    keepsExplicit cfgW ⟨some ["r"], some ["ib"], some (.inl "/w/base"), none⟩ :=
  ⟨(resolveExtends_terminates_root_wins envW 2 cfgW "/w" []).1 (by decide),
   (resolveExtends_terminates_root_wins envW 2 cfgW "/w" []).2.1
     ⟨some ["r"], some ["ib"], some (.inl "/w/base"), none⟩ ["/w/base"] rfl⟩

/-- A genuinely cyclic filesystem: `/r/a` extends `/r/b`, which extends
`/r/a` again (extends entries given as absolute paths). -/
def envCyc : ExtEnv :=
  { fs := [("/r/a", .valid ⟨none, none, some (.inl "/r/b"), none⟩),
           ("/r/b", .valid ⟨none, none, some (.inl "/r/a"), none⟩)]
    resolvePath := fun _ p => p
    parentDir := fun _ => "" }

/-- A root configuration entering the cycle through `/r/a`. -/
def cfgRootCyc : PurgoConfig := ⟨some ["r"], none, some (.inl "/r/a"), none⟩

/-- A diamond filesystem: `/r/a` and `/r/b` both extend `/r/d` (which has no
extends of its own); the second arrival at `/r/d` comes from a sibling
branch, so only the shared visited set can detect it. -/
def envDia : ExtEnv :=
  { fs := [("/r/a", .valid ⟨none, none, some (.inl "/r/d"), none⟩),
           ("/r/b", .valid ⟨none, none, some (.inl "/r/d"), none⟩),
           ("/r/d", .valid ⟨none, none, none, none⟩)]
    resolvePath := fun _ p => p
    parentDir := fun _ => "" }

/-- A root configuration extending both diamond branches in order. -/
def cfgRootDia : PurgoConfig := ⟨none, none, some (.inr ["/r/a", "/r/b"]), none⟩

/-- On the cyclic environment every fuel level produces an error (the cycle
error once the trace is deep enough to revisit `/r/a`). -/
theorem envCyc_always_errors :
    ∀ fuel, ∃ err, resolveExtends envCyc fuel cfgRootCyc "" [] = .error err := by
  intro fuel
  match fuel with
  | 0 => exact ⟨.fuelExhausted, rfl⟩
  | 1 => exact ⟨.fuelExhausted, rfl⟩
  | 2 => exact ⟨.fuelExhausted, rfl⟩
  | n + 3 =>
      exact ⟨.cycle "/r/a", by
        simp [resolveExtends, foldSteps, resolveStep, extendList, envCyc,
          cfgRootCyc, List.lookup]⟩

/-- On the diamond environment every fuel level produces an error (the cycle
error for the sibling revisit of `/r/d` once the trace is deep enough). -/
theorem envDia_always_errors :
    ∀ fuel, ∃ err, resolveExtends envDia fuel cfgRootDia "" [] = .error err := by
  intro fuel
  match fuel with
  | 0 => exact ⟨.fuelExhausted, rfl⟩
  | 1 => exact ⟨.fuelExhausted, rfl⟩
  | 2 => exact ⟨.fuelExhausted, rfl⟩
  | n + 3 =>
      exact ⟨.cycle "/r/d", by
        simp [resolveExtends, foldSteps, resolveStep, extendList, envDia,
          cfgRootDia, List.lookup, mergeConfigs]⟩

/-- C2: an extends entry whose resolved absolute path is already in the
shared visited set makes the loop fail immediately with the cycle error
naming that path; concretely, the cyclic chain a -> b -> a and the sibling
diamond (a -> d, b -> d, where d's second visit comes from the sibling
branch b because the visited set is shared, not reset per sibling) never
return a configuration at any fuel, and at sufficient fuel fail with the
cycle error naming the repeated path. -/
theorem resolveExtends_cycle_detected :
    (∀ (env : ExtEnv) (fuel : Nat) (cwd : String) (acc : PurgoConfig × List String)
        (e : String) (rest : List String), env.resolvePath cwd e ∈ acc.2 →
      foldSteps (resolveStep env fuel cwd) (e :: rest) acc =
        .error (.cycle (env.resolvePath cwd e))) ∧
    (∀ fuel r v', resolveExtends envCyc fuel cfgRootCyc "" [] ≠ .ok (r, v')) ∧
    (∀ n, resolveExtends envCyc (n + 3) cfgRootCyc "" [] = .error (.cycle "/r/a")) ∧
    (∀ fuel r v', resolveExtends envDia fuel cfgRootDia "" [] ≠ .ok (r, v')) ∧
    (∀ n, resolveExtends envDia (n + 3) cfgRootDia "" [] = .error (.cycle "/r/d")) := by
  refine ⟨?_, ?_, ?_, ?_, ?_⟩
  · intro env fuel cwd acc e rest hmem
    have hs : resolveStep env fuel cwd acc e =
        .error (.cycle (env.resolvePath cwd e)) := by
      unfold resolveStep
      rw [if_pos hmem]
    simp [foldSteps, hs]
  · intro fuel r v' h
    obtain ⟨err, herr⟩ := envCyc_always_errors fuel
    rw [herr] at h
    simp at h
  · intro n
    obtain ⟨err, herr⟩ := envCyc_always_errors (n + 3)
    have : err = .cycle "/r/a" := by
      have h2 : resolveExtends envCyc (n + 3) cfgRootCyc "" [] =
          .error (.cycle "/r/a") := by
        simp [resolveExtends, foldSteps, resolveStep, extendList, envCyc,
          cfgRootCyc, List.lookup]
      rw [herr] at h2
      simpa using h2
    rw [herr, this]
  · intro fuel r v' h
    obtain ⟨err, herr⟩ := envDia_always_errors fuel
    rw [herr] at h
    simp at h
  · intro n
    simp [resolveExtends, foldSteps, resolveStep, extendList, envDia,
      cfgRootDia, List.lookup, mergeConfigs]

/-- Witness for C2: a concrete loop state whose head entry is already
visited fails with the cycle error naming the path. -/
theorem resolveExtends_cycle_detected_witness :
    foldSteps (resolveStep envCyc 5 "") ["/r/a"] (cfgRootCyc, ["/r/a"]) =
      .error (.cycle "/r/a") :=
  resolveExtends_cycle_detected.1 envCyc 5 "" (cfgRootCyc, ["/r/a"]) "/r/a" []
    (by decide)

/-! Embedding of `loadConfig` of src/config.ts. -/

/-- A raw configuration value as seen through `configSchema.safeParse`. -/
inductive ParseResult
  | invalid
  | valid (c : PurgoConfig)
deriving DecidableEq, Repr

/-- Environment of `loadConfig`: the extends environment (also used for the
direct load of the global config file) plus the two external discovery
results — the workspace search from `projectRoot` (cosmiconfig `search`,
`none` when nothing is found or the found file is empty) and the `purgo-cli`
field of the package manifest (`none` when the manifest has no such field). -/
structure LoadEnv where
  ext : ExtEnv
  workspace : Option ParseResult
  pkgJson : Option ParseResult

/-- The global-config candidate of `loadConfig`: only consulted when
`globalConfigPath` is provided and truthy (the empty string is falsy in
`globalConfigPath && existsSync(...)`) and the file exists; a null load
result is silently skipped (`if (globalResult)`), a validation failure
throws, and a valid config has its extends chain resolved relative to its
containing directory, recording the path as provenance. -/
def globalCandidate (env : LoadEnv) (fuel : Nat) (globalConfigPath : Option String) :
    Except LoadError (List LoadedConfig) :=
  match globalConfigPath with
  | none => .ok []
  | some gcp =>
      if gcp = "" then .ok []
      else
        match env.ext.fs.lookup gcp with
        | none => .ok []
        | some .unloadable => .ok []
        | some .invalid => .error (.invalidGlobal gcp)
        | some (.valid c) =>
            match resolveExtends env.ext fuel c (env.ext.parentDir gcp) [] with
            | .error e => .error e
            | .ok (r, _) => .ok [{ config := r, filepath := some gcp }]

/-- The workspace candidate of `loadConfig` (`loadRawConfig` + extends
resolution relative to `projectRoot`); no provenance filepath is recorded. -/
def workspaceCandidate (env : LoadEnv) (fuel : Nat) (projectRoot : String) :
    Except LoadError (List LoadedConfig) :=
  match env.workspace with
  | none => .ok []
  | some .invalid => .error .invalidWorkspace
  | some (.valid c) =>
      match resolveExtends env.ext fuel c projectRoot [] with
      | .error e => .error e
      | .ok (r, _) => .ok [{ config := r, filepath := none }]

/-- The package-manifest candidate of `loadConfig`; no provenance filepath
is recorded. -/
def pkgJsonCandidate (env : LoadEnv) (fuel : Nat) (projectRoot : String) :
    Except LoadError (List LoadedConfig) :=
  match env.pkgJson with
  | none => .ok []
  | some .invalid => .error .invalidPackageJson
  | some (.valid c) =>
      match resolveExtends env.ext fuel c projectRoot [] with
      | .error e => .error e
      | .ok (r, _) => .ok [{ config := r, filepath := none }]

/-- One step of the final reduce: merge the candidate as override and let its
filepath (if any) replace the accumulated one (`current.filepath ?? acc.filepath`). -/
def mergeCandidate (acc current : LoadedConfig) : LoadedConfig :=
  { config := mergeConfigs acc.config current.config
    filepath := current.filepath.or acc.filepath }

/-- The final reduce of `loadConfig` over the candidate list, starting from
an empty configuration with no filepath. -/
def foldCandidates (configs : List LoadedConfig) : LoadedConfig :=
  configs.foldl mergeCandidate { config := ⟨none, none, none, none⟩, filepath := none }

/-- Embedding of `loadConfig({projectRoot, globalConfigPath})`: check the
cache first (returning the hit together with the cache state after get's
lazy eviction); on miss gather the global, workspace and package-manifest
candidates in that order (any error aborts the whole load), fold them
left-to-right and store the result in the cache. -/
def loadConfig (env : LoadEnv) (fuel : Nat) (cache : ConfigCache.CacheState)
    (now : Nat) (projectRoot : String) (globalConfigPath : Option String) :
    Except LoadError LoadedConfig × ConfigCache.CacheState :=
  match (ConfigCache.get cache now projectRoot globalConfigPath).1 with
  | some cached => (.ok cached, (ConfigCache.get cache now projectRoot globalConfigPath).2)
  | none =>
      match globalCandidate env fuel globalConfigPath with
      | .error e => (.error e, (ConfigCache.get cache now projectRoot globalConfigPath).2)
      | .ok l1 =>
          match workspaceCandidate env fuel projectRoot with
          | .error e => (.error e, (ConfigCache.get cache now projectRoot globalConfigPath).2)
          | .ok l2 =>
              match pkgJsonCandidate env fuel projectRoot with
              | .error e =>
                  (.error e, (ConfigCache.get cache now projectRoot globalConfigPath).2)
              | .ok l3 =>
                  (.ok (foldCandidates (l1 ++ l2 ++ l3)),
                   ConfigCache.set (ConfigCache.get cache now projectRoot globalConfigPath).2
                     projectRoot (foldCandidates (l1 ++ l2 ++ l3)) globalConfigPath now)

/-- The load-order scenario of the specification: a global config with
targets and ignore, a workspace config with targets and ignore, and a
package-manifest config with only targets. -/
def envC4 : LoadEnv :=
  { ext := { fs := [("/g/config.json", .valid ⟨some ["g"], some ["ig-g"], none, none⟩)]
             resolvePath := fun _ p => p
             parentDir := fun _ => "/g" }
    workspace := some (.valid ⟨some ["w"], some ["ig-w"], none, none⟩)
    pkgJson := some (.valid ⟨some ["p"], none, none, none⟩) }

/-- C4: on a cache miss with global `{targets:[g], ignore:[ig-g]}`, workspace
`{targets:[w], ignore:[ig-w]}` and package-manifest `{targets:[p]}`, the
left-to-right fold gives `targets = [p]` (manifest wins over workspace over
global) and `ignore = [ig-w]` (the manifest sets no ignore, so the workspace
value survives above the global one). -/
theorem loadConfig_precedence_scenario :
    (loadConfig envC4 2 [] 0 "/proj" (some "/g/config.json")).1 =
      .ok { config := ⟨some ["p"], some ["ig-w"], none, none⟩
            filepath := some "/g/config.json" } := rfl

/-- Deleting one key leaves every other key's lookup unchanged. -/
theorem lookup_mapDelete_other (m : ConfigCache.CacheState) {k k2 : String}
    (h : k2 ≠ k) : (ConfigCache.mapDelete m k).lookup k2 = m.lookup k2 := by
  induction m with
  | nil => rfl
  | cons a rest ih =>
      obtain ⟨k', v'⟩ := a
      by_cases hk : k' = k
      · subst hk
        have hne2 : (k2 == k') = false := beq_eq_false_iff_ne.mpr h
        simpa only [ConfigCache.mapDelete, List.filter_cons, bne_self_eq_false,
          Bool.false_eq_true, if_false, reduceIte, List.lookup, hne2] using ih
      · have hb : (k' != k) = true := bne_iff_ne.mpr hk
        by_cases h2 : k2 = k'
        · subst h2
          simp [ConfigCache.mapDelete, List.filter_cons, hb, List.lookup]
        · have hne2 : (k2 == k') = false := beq_eq_false_iff_ne.mpr h2
          simpa only [ConfigCache.mapDelete, List.filter_cons, hb, if_true, reduceIte,
            List.lookup, hne2] using ih

/-- The cache state returned by `get` never gains or changes an entry: every
key looks up as before, except a lazily evicted expired key, which is gone. -/
theorem cacheGet_lookup (cache : ConfigCache.CacheState) (now : Nat) (root : String)
    (gcp : Option String) (k : String) :
    ((ConfigCache.get cache now root gcp).2).lookup k = cache.lookup k ∨
      ((ConfigCache.get cache now root gcp).2).lookup k = none := by
  simp only [ConfigCache.get]
  cases hl : cache.lookup (ConfigCache.getCacheKey root gcp) with
  | none => exact Or.inl rfl
  | some entry =>
      cases hv : ConfigCache.isValid now entry with
      | true => simp [hv]
      | false =>
          simp only [hv, Bool.false_eq_true, if_false, reduceIte]
          by_cases hk : k = ConfigCache.getCacheKey root gcp
          · subst hk
            exact Or.inr (lookup_mapDelete_self cache _)
          · exact Or.inl (lookup_mapDelete_other cache hk)

/-- The filepath of the final reduce is the initial one or that of some
candidate (positionally, the last one that provided a filepath). -/
theorem foldl_mergeCandidate_filepath (l : List LoadedConfig) :
    ∀ acc, (l.foldl mergeCandidate acc).filepath = acc.filepath ∨
      ∃ x ∈ l, (l.foldl mergeCandidate acc).filepath = x.filepath := by
  induction l with
  | nil => intro acc; exact Or.inl rfl
  | cons x rest ih =>
      intro acc
      rw [List.foldl_cons]
      rcases ih (mergeCandidate acc x) with h | ⟨y, hy, h⟩
      · rw [h]
        cases hx : x.filepath with
        | none => exact Or.inl (by simp [mergeCandidate, hx])
        | some f =>
            exact Or.inr ⟨x, List.mem_cons_self x rest, by simp [mergeCandidate, hx]⟩
      · exact Or.inr ⟨y, List.mem_cons_of_mem x hy, h⟩

/-- Every global candidate carries the global config path as provenance. -/
theorem globalCandidate_filepath {env : LoadEnv} {fuel : Nat} {gcp : Option String}
    {l : List LoadedConfig} (h : globalCandidate env fuel gcp = .ok l) :
    ∀ x ∈ l, x.filepath = gcp := by
  unfold globalCandidate at h
  split at h
  · simp only [Except.ok.injEq] at h
    subst h
    intro x hx
    simp at hx
  · split at h
    · simp only [Except.ok.injEq] at h
      subst h
      intro x hx
      simp at hx
    · split at h
      · simp only [Except.ok.injEq] at h
        subst h
        intro x hx
        simp at hx
      · simp only [Except.ok.injEq] at h
        subst h
        intro x hx
        simp at hx
      · simp at h
      · split at h
        · simp at h
        · simp only [Except.ok.injEq] at h
          subst h
          intro x hx
          rw [List.mem_singleton.mp hx]

/-- Workspace candidates never carry a provenance filepath. -/
theorem workspaceCandidate_filepath {env : LoadEnv} {fuel : Nat} {root : String}
    {l : List LoadedConfig} (h : workspaceCandidate env fuel root = .ok l) :
    ∀ x ∈ l, x.filepath = none := by
  unfold workspaceCandidate at h
  split at h
  · simp only [Except.ok.injEq] at h
    subst h
    intro x hx
    simp at hx
  · simp at h
  · split at h
    · simp at h
    · simp only [Except.ok.injEq] at h
      subst h
      intro x hx
      rw [List.mem_singleton.mp hx]

/-- Package-manifest candidates never carry a provenance filepath. -/
theorem pkgJsonCandidate_filepath {env : LoadEnv} {fuel : Nat} {root : String}
    {l : List LoadedConfig} (h : pkgJsonCandidate env fuel root = .ok l) :
    ∀ x ∈ l, x.filepath = none := by
  unfold pkgJsonCandidate at h
  split at h
  · simp only [Except.ok.injEq] at h
    subst h
    intro x hx
    simp at hx
  · simp at h
  · split at h
    · simp at h
    · simp only [Except.ok.injEq] at h
      subst h
      intro x hx
      rw [List.mem_singleton.mp hx]

/-- C9: on a cache miss, the filepath of a successfully loaded configuration
is either absent or the provided global config path — only the global
candidate records provenance, the workspace and package-manifest candidates
never do. -/
theorem loadConfig_filepath_provenance (env : LoadEnv) (fuel : Nat)
    (cache : ConfigCache.CacheState) (now : Nat) (root : String) (gcp : Option String)
    (hmiss : (ConfigCache.get cache now root gcp).1 = none)
    (lc : LoadedConfig) (h : (loadConfig env fuel cache now root gcp).1 = .ok lc) :
    lc.filepath = none ∨ lc.filepath = gcp := by
  unfold loadConfig at h
  rw [hmiss] at h
  cases hg : globalCandidate env fuel gcp with
  | error e => rw [hg] at h; simp at h
  | ok l1 =>
      rw [hg] at h
      cases hw : workspaceCandidate env fuel root with
      | error e => rw [hw] at h; simp at h
      | ok l2 =>
          rw [hw] at h
          cases hp : pkgJsonCandidate env fuel root with
          | error e => rw [hp] at h; simp at h
          | ok l3 =>
              rw [hp] at h
              simp only [Except.ok.injEq] at h
              subst h
              unfold foldCandidates
              rcases foldl_mergeCandidate_filepath (l1 ++ l2 ++ l3)
                  { config := ⟨none, none, none, none⟩, filepath := none } with
                hf | ⟨x, hx, hf⟩
              · exact Or.inl hf
              · rcases List.mem_append.mp hx with hx12 | hx3
                · rcases List.mem_append.mp hx12 with hx1 | hx2
                  · exact Or.inr (hf.trans (globalCandidate_filepath hg x hx1))
                  · exact Or.inl (hf.trans (workspaceCandidate_filepath hw x hx2))
                · exact Or.inl (hf.trans (pkgJsonCandidate_filepath hp x hx3))

/-- Witness for C9 on the concrete load-order scenario. -/
theorem loadConfig_filepath_provenance_witness :
    ({ config := ⟨some ["p"], some ["ig-w"], none, none⟩,
       filepath := some "/g/config.json" } : LoadedConfig).filepath = none ∨
    ({ config := ⟨some ["p"], some ["ig-w"], none, none⟩,
       filepath := some "/g/config.json" } : LoadedConfig).filepath =
      some "/g/config.json" :=
  loadConfig_filepath_provenance envC4 2 [] 0 "/proj" (some "/g/config.json") rfl
    { config := ⟨some ["p"], some ["ig-w"], none, none⟩
      filepath := some "/g/config.json" } rfl

/-- C7: on a cache miss, a failure of any source aborts the whole load with
exactly that error and performs no cache write — the returned cache state is
the one produced by the initial lookup, so every key still looks up as
before (or, for a lazily evicted expired entry, is absent): no partial or
degraded configuration is returned or cached.  Schema-validation failures of
the workspace, package-manifest and global sources produce their respective
errors. -/
theorem loadConfig_error_propagation (env : LoadEnv) (fuel : Nat)
    (cache : ConfigCache.CacheState) (now : Nat) (root : String) (gcp : Option String)
    (hmiss : (ConfigCache.get cache now root gcp).1 = none) :
    (∀ e, globalCandidate env fuel gcp = .error e →
      loadConfig env fuel cache now root gcp =
        (.error e, (ConfigCache.get cache now root gcp).2)) ∧
    (∀ l1 e, globalCandidate env fuel gcp = .ok l1 →
      workspaceCandidate env fuel root = .error e →
      loadConfig env fuel cache now root gcp =
        (.error e, (ConfigCache.get cache now root gcp).2)) ∧
    (∀ l1 l2 e, globalCandidate env fuel gcp = .ok l1 →
      workspaceCandidate env fuel root = .ok l2 →
      pkgJsonCandidate env fuel root = .error e →
      loadConfig env fuel cache now root gcp =
        (.error e, (ConfigCache.get cache now root gcp).2)) ∧
    (env.workspace = some .invalid →
      workspaceCandidate env fuel root = .error .invalidWorkspace) ∧
    (env.pkgJson = some .invalid →
      pkgJsonCandidate env fuel root = .error .invalidPackageJson) ∧
    (∀ g, gcp = some g → g ≠ "" → env.ext.fs.lookup g = some .invalid →
      globalCandidate env fuel gcp = .error (.invalidGlobal g)) ∧
    (∀ e k, (loadConfig env fuel cache now root gcp).1 = .error e →
      ((loadConfig env fuel cache now root gcp).2).lookup k = cache.lookup k ∨
      ((loadConfig env fuel cache now root gcp).2).lookup k = none) := by
  refine ⟨?_, ?_, ?_, ?_, ?_, ?_, ?_⟩
  · intro e hg
    unfold loadConfig
    rw [hmiss, hg]
  · intro l1 e hg hw
    unfold loadConfig
    rw [hmiss, hg, hw]
  · intro l1 l2 e hg hw hp
    unfold loadConfig
    rw [hmiss, hg, hw, hp]
  · intro hws
    unfold workspaceCandidate
    rw [hws]
  · intro hpj
    unfold pkgJsonCandidate
    rw [hpj]
  · intro g hgcp hne hlook
    subst hgcp
    simp only [globalCandidate, if_neg hne, hlook]
  · intro e k herr
    have hstate : (loadConfig env fuel cache now root gcp).2 =
        (ConfigCache.get cache now root gcp).2 := by
      unfold loadConfig at herr ⊢
      cases hg : globalCandidate env fuel gcp with
      | error e2 => simp [hmiss, hg]
      | ok l1 =>
          cases hw : workspaceCandidate env fuel root with
          | error e2 => simp [hmiss, hg, hw]
          | ok l2 =>
              cases hp : pkgJsonCandidate env fuel root with
              | error e2 => simp [hmiss, hg, hw, hp]
              | ok l3 =>
                  rw [hmiss] at herr
                  simp [hg, hw, hp] at herr
    rw [hstate]
    exact cacheGet_lookup cache now root gcp k

/-- An environment whose workspace configuration fails schema validation. -/
def envC7 : LoadEnv :=
  { ext := { fs := [], resolvePath := fun _ p => p, parentDir := fun p => p }
    workspace := some .invalid
    pkgJson := none }

/-- Witness for C7: on a concrete miss with an invalid workspace config, the
whole load fails with the workspace validation error and the cache stays
untouched. -/
theorem loadConfig_error_propagation_witness :
    loadConfig envC7 1 [] 0 "/p" none = (.error .invalidWorkspace, []) :=
  (loadConfig_error_propagation envC7 1 [] 0 "/p" none rfl).2.1 []
    .invalidWorkspace rfl rfl
